import Mathlib

/-!
Verification of the sequence-transformation core of the needletail crate
(`src/sequence.rs`), shallowly embedded in Lean.  Bytes are modelled as
`Nat` values below 256; byte slices as `List Nat`; Rust's `Cow` as a
two-constructor inductive; `Option<Vec<u8>>` as `Option (List Nat)`.

ASCII constants used throughout:
A=65 C=67 G=71 T=84 N=78 gap(-)=45 a=97 c=99 g=103 t=116 u=117 U=85
dot(.)=46 tilde(~)=126 B=66 D=68 H=72 V=86 R=82 Y=89 S=83 W=87 K=75 M=77
b=98 d=100 h=104 v=118 r=114 y=121 s=115 w=119 k=107 m=109
space=32 tab=9 CR=13 LF=10
-/

namespace Needletail

/-- The per-byte step of `normalize` (`src/sequence.rs` lines 23-62): the
`match (*n, allow_iupac)` expression, returning `(new_char, char_changed)`.
Whitespace bytes map to the space byte 32, which the caller drops. -/
def normMap (n : Nat) (allow_iupac : Bool) : Nat × Bool :=
  if n = 65 ∨ n = 67 ∨ n = 71 ∨ n = 84 ∨ n = 78 ∨ n = 45 then (n, false)
  else if n = 97 then (65, true)
  else if n = 99 then (67, true)
  else if n = 103 then (71, true)
  else if n = 116 ∨ n = 117 ∨ n = 85 then (84, true)
  else if n = 46 ∨ n = 126 then (45, true)
  else if (n = 66 ∨ n = 68 ∨ n = 72 ∨ n = 86 ∨ n = 82 ∨ n = 89 ∨ n = 83 ∨
      n = 87 ∨ n = 75 ∨ n = 77) ∧ allow_iupac = true then (n, false)
  else if n = 98 ∧ allow_iupac = true then (66, true)
  else if n = 100 ∧ allow_iupac = true then (68, true)
  else if n = 104 ∧ allow_iupac = true then (72, true)
  else if n = 118 ∧ allow_iupac = true then (86, true)
  else if n = 114 ∧ allow_iupac = true then (82, true)
  else if n = 121 ∧ allow_iupac = true then (89, true)
  else if n = 115 ∧ allow_iupac = true then (83, true)
  else if n = 119 ∧ allow_iupac = true then (87, true)
  else if n = 107 ∧ allow_iupac = true then (75, true)
  else if n = 109 ∧ allow_iupac = true then (77, true)
  else if n = 32 ∨ n = 9 ∨ n = 13 ∨ n = 10 then (32, true)
  else (78, true)

/-- The loop of `normalize` (`src/sequence.rs` lines 22-67): accumulate the
output buffer (dropping bytes mapped to space) and the `changed` flag. -/
def normalizeRun (seq : List Nat) (allow_iupac : Bool) : List Nat × Bool :=
  match seq with
  | [] => ([], false)
  | n :: rest =>
    ((if (normMap n allow_iupac).1 ≠ 32 then [(normMap n allow_iupac).1] else []) ++
        (normalizeRun rest allow_iupac).1,
      (normMap n allow_iupac).2 || (normalizeRun rest allow_iupac).2)

/-- `normalize` (`src/sequence.rs` lines 18-73): `some buf` when the
`changed` flag ends up true, `none` otherwise. -/
def normalize (seq : List Nat) (allow_iupac : Bool) : Option (List Nat) :=
  let r := normalizeRun seq allow_iupac
  if r.2 then some r.1 else none

/-- The per-byte mapping table of spec section 4.1, written from the spec's
words: each input byte yields the list of output bytes it contributes
(empty for removed whitespace).  This is the specification-side definition
that `normalize` is compared against. -/
def specTable (b : Nat) (allow_iupac : Bool) : List Nat :=
  if b = 65 ∨ b = 67 ∨ b = 71 ∨ b = 84 ∨ b = 78 ∨ b = 45 then [b]
  else if b = 97 then [65]
  else if b = 99 then [67]
  else if b = 103 then [71]
  else if b = 116 ∨ b = 117 ∨ b = 85 then [84]
  else if b = 46 ∨ b = 126 then [45]
  else if b = 66 ∨ b = 68 ∨ b = 72 ∨ b = 86 ∨ b = 82 ∨ b = 89 ∨ b = 83 ∨
      b = 87 ∨ b = 75 ∨ b = 77 then (if allow_iupac then [b] else [78])
  else if b = 98 ∨ b = 100 ∨ b = 104 ∨ b = 118 ∨ b = 114 ∨ b = 121 ∨
      b = 115 ∨ b = 119 ∨ b = 107 ∨ b = 109 then
    (if allow_iupac then [b - 32] else [78])
  else if b = 32 ∨ b = 9 ∨ b = 13 ∨ b = 10 then []
  else [78]

/-- A byte was "altered or removed" by the section 4.1 table: its per-byte
mapping is not the singleton of the byte itself (removal gives `[]`,
alteration a different singleton). -/
def alteredOrRemoved (b : Nat) (allow_iupac : Bool) : Prop :=
  specTable b allow_iupac = [] ∨ specTable b allow_iupac ≠ [b]

instance (b : Nat) (i : Bool) : Decidable (alteredOrRemoved b i) := by
  unfold alteredOrRemoved; infer_instance

section PerByte

set_option maxRecDepth 10000

theorem byte_table_eq : ∀ b < 256, ∀ i : Bool,
    (if (normMap b i).1 ≠ 32 then [(normMap b i).1] else []) = specTable b i := by
  decide

theorem byte_changed_iff : ∀ b < 256, ∀ i : Bool,
    ((normMap b i).2 = true ↔ specTable b i ≠ [b]) := by
  decide

theorem byte_fixed : ∀ b < 256, ∀ i : Bool, (normMap b i).1 ≠ 32 →
    (normMap b i).1 ≠ 32 ∧ normMap (normMap b i).1 i = ((normMap b i).1, false) := by
  decide

theorem byte_table_len : ∀ b < 256, ∀ i : Bool, (specTable b i).length ≤ 1 := by
  decide

end PerByte

theorem run_buf_eq (seq : List Nat) (i : Bool) (h : ∀ b ∈ seq, b < 256) :
    (normalizeRun seq i).1 = seq.flatMap (fun b => specTable b i) := by
  induction seq with
  | nil => rfl
  | cons a l ih =>
    have ha : a < 256 := h a (List.mem_cons_self a l)
    have hl : ∀ b ∈ l, b < 256 := fun b hb => h b (List.mem_cons_of_mem a hb)
    simp only [normalizeRun, List.flatMap_cons]
    rw [ih hl, byte_table_eq a ha i]

theorem run_changed_iff (seq : List Nat) (i : Bool) (h : ∀ b ∈ seq, b < 256) :
    ((normalizeRun seq i).2 = true ↔ ∃ b ∈ seq, specTable b i ≠ [b]) := by
  induction seq with
  | nil => simp [normalizeRun]
  | cons a l ih =>
    have ha : a < 256 := h a (List.mem_cons_self a l)
    have hl : ∀ b ∈ l, b < 256 := fun b hb => h b (List.mem_cons_of_mem a hb)
    simp only [normalizeRun, Bool.or_eq_true, ih hl, List.mem_cons]
    rw [byte_changed_iff a ha i]
    constructor
    · rintro (hc | ⟨b, hb, hc⟩)
      · exact ⟨a, Or.inl rfl, hc⟩
      · exact ⟨b, Or.inr hb, hc⟩
    · rintro ⟨b, hb | hb, hc⟩
      · exact Or.inl (hb ▸ hc)
      · exact Or.inr ⟨b, hb, hc⟩

theorem run_fixed_elem (seq : List Nat) (i : Bool) (h : ∀ b ∈ seq, b < 256) :
    ∀ x ∈ (normalizeRun seq i).1, x ≠ 32 ∧ normMap x i = (x, false) := by
  induction seq with
  | nil => intro x hx; exact absurd hx (List.not_mem_nil x)
  | cons a l ih =>
    have ha : a < 256 := h a (List.mem_cons_self a l)
    have hl : ∀ b ∈ l, b < 256 := fun b hb => h b (List.mem_cons_of_mem a hb)
    intro x hx
    simp only [normalizeRun, List.mem_append] at hx
    rcases hx with hx | hx
    · by_cases h32 : (normMap a i).1 ≠ 32
      · simp only [if_pos h32, List.mem_singleton] at hx
        subst hx
        exact byte_fixed a ha i h32
      · simp only [if_neg h32] at hx
        exact absurd hx (List.not_mem_nil x)
    · exact ih hl x hx

theorem run_of_fixed (l : List Nat) (i : Bool)
    (h : ∀ x ∈ l, x ≠ 32 ∧ normMap x i = (x, false)) :
    normalizeRun l i = (l, false) := by
  induction l with
  | nil => rfl
  | cons a t ih =>
    have ha := h a (List.mem_cons_self a t)
    have ht : ∀ x ∈ t, x ≠ 32 ∧ normMap x i = (x, false) :=
      fun x hx => h x (List.mem_cons_of_mem a hx)
    simp only [normalizeRun, ih ht, ha.2, if_pos ha.1]
    rfl

theorem flatMap_table_len_le (seq : List Nat) (i : Bool) (h : ∀ b ∈ seq, b < 256) :
    (seq.flatMap (fun b => specTable b i)).length ≤ seq.length := by
  induction seq with
  | nil => simp
  | cons a l ih =>
    have ha : a < 256 := h a (List.mem_cons_self a l)
    have hl : ∀ b ∈ l, b < 256 := fun b hb => h b (List.mem_cons_of_mem a hb)
    simp only [List.flatMap_cons, List.length_append, List.length_cons]
    have := byte_table_len a ha i
    have := ih hl
    omega

theorem flatMap_table_eq_self_iff (seq : List Nat) (i : Bool) (h : ∀ b ∈ seq, b < 256) :
    (seq.flatMap (fun b => specTable b i) = seq ↔ ∀ b ∈ seq, specTable b i = [b]) := by
  induction seq with
  | nil => simp
  | cons a l ih =>
    have ha : a < 256 := h a (List.mem_cons_self a l)
    have hl : ∀ b ∈ l, b < 256 := fun b hb => h b (List.mem_cons_of_mem a hb)
    simp only [List.flatMap_cons, List.mem_cons]
    constructor
    · intro heq
      rcases hsp : specTable a i with _ | ⟨c, t⟩
      · rw [hsp, List.nil_append] at heq
        have hlen : (l.flatMap (fun b => specTable b i)).length = l.length + 1 := by
          rw [heq]; simp
        have := flatMap_table_len_le l i hl
        omega
      · have hle := byte_table_len a ha i
        rw [hsp] at hle
        have ht : t = [] := by
          cases t with
          | nil => rfl
          | cons _ _ => simp at hle
        subst ht
        rw [hsp, List.singleton_append] at heq
        have hca : c = a := (List.cons_eq_cons.mp heq).1
        have hrest := (List.cons_eq_cons.mp heq).2
        subst hca
        intro b hb
        rcases hb with hb | hb
        · subst hb; exact hsp
        · exact (ih hl).mp hrest b hb
    · intro hall
      rw [hall a (Or.inl rfl), List.singleton_append,
        (ih hl).mpr (fun b hb => hall b (Or.inr hb))]

/-- Rust's `Cow<[u8]>`: either a borrowed view of the input or a freshly
allocated owned buffer. -/
inductive Cow where
  | borrowed : List Nat → Cow
  | owned : List Nat → Cow
deriving DecidableEq

/-- The byte content of a `Cow`, regardless of ownership. -/
def Cow.toList : Cow → List Nat
  | .borrowed l => l
  | .owned l => l

/-- Whether a `Cow` is the borrowed (zero-allocation) form. -/
def Cow.isBorrowed : Cow → Bool
  | .borrowed _ => true
  | .owned _ => false

/-- A carriage-return (13) or line-feed (10) byte. -/
def isNewline (b : Nat) : Bool := b == 13 || b == 10

/-- The `memchr2` primitive used by `strip_returns`: index of the first
occurrence of either byte `a` or byte `b`, if any. -/
def memchr2 (a b : Nat) : List Nat → Option Nat
  | [] => none
  | x :: xs => if x == a || x == b then some 0 else (memchr2 a b xs).map (· + 1)

/-- The copy loop of `strip_returns` (`src/sequence.rs` lines 117-128):
starting at index `i` with the bytes before `i` already copied into `buf`,
repeatedly copy the run up to the next CR/LF and skip that byte. -/
def stripLoop (seq : List Nat) (i : Nat) (buf : List Nat) : List Nat :=
  if _h : i < seq.length then
    match memchr2 13 10 (seq.drop i) with
    | none => buf ++ seq.drop i
    | some p => stripLoop seq (i + p + 1) (buf ++ (seq.drop i).take p)
  else buf
termination_by seq.length - i
decreasing_by simp_wf; omega

/-- `strip_returns` (`src/sequence.rs` lines 104-130): fast-path scan with
`memchr2`; if no CR/LF exists return the input borrowed, otherwise build a
new buffer from the prefix before the first CR/LF plus the copy loop. -/
def strip_returns (seq : List Nat) : Cow :=
  match memchr2 13 10 seq with
  | none => Cow.borrowed seq
  | some i => Cow.owned (stripLoop seq i (seq.take i))

theorem memchr2_eq_none_iff (a b : Nat) (l : List Nat) :
    memchr2 a b l = none ↔ ∀ x ∈ l, ¬(x = a ∨ x = b) := by
  induction l with
  | nil => simp [memchr2]
  | cons x xs ih =>
    simp only [memchr2, List.mem_cons]
    by_cases hx : (x == a || x == b) = true
    · simp only [if_pos hx]
      simp only [Bool.or_eq_true, beq_iff_eq] at hx
      constructor
      · intro h; exact absurd h (by simp)
      · intro h; exact absurd hx (h x (Or.inl rfl))
    · simp only [if_neg hx]
      rw [show ∀ o : Option Nat, o.map (· + 1) = none ↔ o = none by
        intro o; cases o <;> simp]
      simp only [Bool.or_eq_true, beq_iff_eq] at hx
      push_neg at hx
      rw [ih]
      constructor
      · rintro h y (rfl | hy)
        · intro hc; rcases hc with hc | hc
          · exact hx.1 hc
          · exact hx.2 hc
        · exact h y hy
      · intro h y hy; exact h y (Or.inr hy)

theorem filter_eq_of_memchr2_none (l : List Nat) (h : memchr2 13 10 l = none) :
    l.filter (fun x => !isNewline x) = l := by
  rw [List.filter_eq_self]
  intro x hx
  have := (memchr2_eq_none_iff 13 10 l).mp h x hx
  simp only [isNewline, Bool.not_eq_true']
  simp only [Bool.or_eq_false_iff, beq_eq_false_iff_ne]
  tauto

theorem memchr2_some_lt (a b : Nat) (l : List Nat) (p : Nat)
    (h : memchr2 a b l = some p) : p < l.length := by
  induction l generalizing p with
  | nil => simp [memchr2] at h
  | cons x xs ih =>
    simp only [memchr2] at h
    by_cases hx : (x == a || x == b) = true
    · rw [if_pos hx] at h
      cases h
      simp
    · rw [if_neg hx] at h
      rcases Option.map_eq_some.mp h with ⟨q, hq, rfl⟩
      have := ih q hq
      simp only [List.length_cons]
      omega

theorem filter_split_of_memchr2_some (l : List Nat) (p : Nat)
    (h : memchr2 13 10 l = some p) :
    l.filter (fun x => !isNewline x) =
      l.take p ++ (l.drop (p + 1)).filter (fun x => !isNewline x) := by
  induction l generalizing p with
  | nil => simp [memchr2] at h
  | cons x xs ih =>
    simp only [memchr2] at h
    by_cases hx : (x == 13 || x == 10) = true
    · rw [if_pos hx] at h
      cases h
      simp only [List.take_zero, List.nil_append, List.drop_succ_cons,
        List.drop_zero, List.filter_cons]
      have : isNewline x = true := hx
      simp [this]
    · rw [if_neg hx] at h
      rcases Option.map_eq_some.mp h with ⟨q, hq, rfl⟩
      have : isNewline x = false := by
        simpa [isNewline] using hx
      simp only [List.filter_cons, this, Bool.not_false, if_pos,
        List.take_succ_cons, List.drop_succ_cons, List.cons_append]
      rw [ih q hq]

theorem stripLoop_eq (seq : List Nat) :
    ∀ n i buf, seq.length - i ≤ n →
      stripLoop seq i buf = buf ++ (seq.drop i).filter (fun x => !isNewline x) := by
  intro n
  induction n with
  | zero =>
    intro i buf hle
    have hge : seq.length ≤ i := by omega
    rw [stripLoop, dif_neg (by omega), List.drop_of_length_le hge]
    simp
  | succ n ih =>
    intro i buf hle
    rw [stripLoop]
    by_cases hi : i < seq.length
    · rw [dif_pos hi]
      rcases hm : memchr2 13 10 (seq.drop i) with _ | p
      · dsimp only
        rw [filter_eq_of_memchr2_none _ hm]
      · dsimp only
        rw [ih (i + p + 1) (buf ++ (seq.drop i).take p) (by omega)]
        rw [filter_split_of_memchr2_some _ p hm]
        rw [List.drop_drop]
        rw [List.append_assoc]
        congr 2
    · rw [dif_neg hi]
      rw [List.drop_of_length_le (by omega)]
      simp

/-- Modelled from the spec: the single-base `complement` function is defined
in `crate::kmer`, which is not among the provided sources (only its caller
`reverse_complement` is).  Spec section 4.2: A↔T, C↔G, N↔N, gap↔gap, each
IUPAC ambiguity code maps to its biological complement (R↔Y, S↔S, W↔W,
K↔M, B↔V, D↔H), unrecognized bytes map to N, total over all bytes. -/
def complement (b : Nat) : Nat :=
  if b = 65 then 84
  else if b = 84 then 65
  else if b = 67 then 71
  else if b = 71 then 67
  else if b = 78 then 78
  else if b = 45 then 45
  else if b = 82 then 89
  else if b = 89 then 82
  else if b = 83 then 83
  else if b = 87 then 87
  else if b = 75 then 77
  else if b = 77 then 75
  else if b = 66 then 86
  else if b = 86 then 66
  else if b = 68 then 72
  else if b = 72 then 68
  else 78

/-- `reverse_complement` (`src/sequence.rs` lines 135-141): iterate the
sequence in reverse and map each byte through `complement`. -/
def reverse_complement (seq : List Nat) : List Nat :=
  seq.reverse.map complement

/-- The supported alphabet {A,C,G,T,N,-} plus the ten IUPAC ambiguity
codes B,D,H,V,R,Y,S,W,K,M. -/
def supportedAlphabet : List Nat :=
  [65, 67, 71, 84, 78, 45, 66, 68, 72, 86, 82, 89, 83, 87, 75, 77]

/-- `quality_mask` (`src/sequence.rs` lines 199-210): zip the sequence with
its quality slice and replace each base whose quality byte is strictly below
`score` with N (78). -/
def quality_mask (seq qual : List Nat) (score : Nat) : List Nat :=
  (seq.zip qual).map (fun p => if p.2 < score then 78 else p.1)

/-- Whether a byte is one of the four canonical bases A, C, G, T. -/
def isACGT (b : Nat) : Bool :=
  b == 65 || b == 67 || b == 71 || b == 84

/-- The length-`k` window of a slice starting at offset `i`. -/
def window (l : List Nat) (i k : Nat) : List Nat :=
  (l.drop i).take k

/-- Lexicographic byte-wise strict order on slices, as Rust's `<` on
`&[u8]`. -/
def lexLt : List Nat → List Nat → Bool
  | [], [] => false
  | [], _ :: _ => true
  | _ :: _, [] => false
  | x :: xs, y :: ys => decide (x < y) || (x == y && lexLt xs ys)

/-- Modelled from the spec: the per-window step of the `CanonicalKmers`
iterator, which is defined in `crate::kmer` and not among the provided
sources.  Spec section 4.5: skip the window if it contains a non-ACGT byte;
otherwise compare the forward window with the mirrored window of the
precomputed reverse complement at offset `length - k - i` and yield the
lexicographically smaller one, flag true iff the mirrored form is chosen
(ties go to the forward form with flag false). -/
def canonicalAt (seq rc : List Nat) (k i : Nat) : Option (Nat × List Nat × Bool) :=
  if (window seq i k).all isACGT then
    if lexLt (window rc (seq.length - k - i) k) (window seq i k) then
      some (i, window rc (seq.length - k - i) k, true)
    else
      some (i, window seq i k, false)
  else none

/-- Modelled from the spec: the `canonical_kmers` iterator (spec section
4.5), materialized as the list of per-offset yields for offsets `i` with
`i + k ≤ length`. -/
def canonical_kmers (seq rc : List Nat) (k : Nat) : List (Nat × List Nat × Bool) :=
  (List.range (seq.length + 1 - k)).filterMap (canonicalAt seq rc k)

theorem complement_involutive : ∀ b ∈ supportedAlphabet, complement (complement b) = b := by
  decide

theorem window_reverse_complement (seq : List Nat) (k i : Nat)
    (h : i + k ≤ seq.length) :
    window (reverse_complement seq) (seq.length - k - i) k =
      reverse_complement (window seq i k) := by
  unfold window reverse_complement
  rw [← List.map_drop, ← List.map_take]
  congr 1
  rw [List.drop_reverse, List.take_reverse]
  have h1 : seq.length - (seq.length - k - i) = k + i := by omega
  rw [h1]
  have h2 : (seq.take (k + i)).length = k + i := by
    rw [List.length_take]
    omega
  rw [h2]
  have h3 : k + i - k = i := by omega
  rw [h3, List.drop_take]
  have h4 : k + i - i = k := by omega
  rw [h4]

theorem quality_mask_getElem (seq qual : List Nat) (score i : Nat) :
    (quality_mask seq qual score)[i]? =
      (seq[i]?).bind (fun s => (qual[i]?).map (fun q => if q < score then 78 else s)) := by
  induction seq generalizing qual i with
  | nil => simp [quality_mask]
  | cons s ss ih =>
    cases qual with
    | nil => simp [quality_mask]
    | cons q qs =>
      cases i with
      | zero => simp [quality_mask]
      | succ j =>
        simp only [quality_mask, List.zip_cons_cons, List.map_cons,
          List.getElem?_cons_succ]
        exact ih qs j

theorem quality_mask_length (seq qual : List Nat) (score : Nat) :
    (quality_mask seq qual score).length = min seq.length qual.length := by
  simp [quality_mask, List.length_zip]

theorem memchr2_take_spec (a b : Nat) (l : List Nat) (p : Nat)
    (h : memchr2 a b l = some p) : ∀ x ∈ l.take p, ¬(x = a ∨ x = b) := by
  induction l generalizing p with
  | nil => simp [memchr2] at h
  | cons x xs ih =>
    simp only [memchr2] at h
    by_cases hx : (x == a || x == b) = true
    · rw [if_pos hx] at h
      cases h
      simp
    · rw [if_neg hx] at h
      rcases Option.map_eq_some.mp h with ⟨q, hq, rfl⟩
      intro y hy
      rw [List.take_succ_cons] at hy
      simp only [Bool.or_eq_true, beq_iff_eq] at hx
      push_neg at hx
      rcases List.mem_cons.mp hy with rfl | hy
      · tauto
      · exact ih q hq y hy

theorem memchr2_some_mem (a b : Nat) (l : List Nat) (p : Nat)
    (h : memchr2 a b l = some p) : ∃ x ∈ l, (x = a ∨ x = b) := by
  induction l generalizing p with
  | nil => simp [memchr2] at h
  | cons x xs ih =>
    simp only [memchr2] at h
    by_cases hx : (x == a || x == b) = true
    · refine ⟨x, List.mem_cons_self x xs, ?_⟩
      simpa using hx
    · rw [if_neg hx] at h
      rcases Option.map_eq_some.mp h with ⟨q, hq, rfl⟩
      rcases ih q hq with ⟨y, hy, hyab⟩
      exact ⟨y, List.mem_cons_of_mem x hy, hyab⟩

theorem lexLt_irrefl (l : List Nat) : lexLt l l = false := by
  induction l with
  | nil => rfl
  | cons x xs ih => simp [lexLt, ih, Nat.lt_irrefl]

theorem alteredOrRemoved_iff (b : Nat) (i : Bool) :
    alteredOrRemoved b i ↔ specTable b i ≠ [b] := by
  unfold alteredOrRemoved
  constructor
  · rintro (h | h)
    · intro hc
      rw [hc] at h
      exact List.cons_ne_nil b [] h
    · exact h
  · exact Or.inr

theorem normalize_eq_none_iff (seq : List Nat) (i : Bool) :
    normalize seq i = none ↔ (normalizeRun seq i).2 = false := by
  unfold normalize
  by_cases hc : (normalizeRun seq i).2 = true <;> simp [hc]

theorem normalize_eq_some_iff (seq : List Nat) (i : Bool) (buf : List Nat) :
    normalize seq i = some buf ↔
      ((normalizeRun seq i).2 = true ∧ (normalizeRun seq i).1 = buf) := by
  unfold normalize
  by_cases hc : (normalizeRun seq i).2 = true <;> simp [hc]

/-- Claim C1: for every input byte sequence and every value of the
allow_iupac flag, the output of normalize (the new buffer when changed, the
input itself when unchanged) is the left-to-right concatenation of the
per-byte mappings of the section 4.1 table: A,C,G,T,N,- pass through; a,c,g
are uppercased; t,u,U map to T; . and ~ map to -; the ten IUPAC ambiguity
letters pass through (uppercased if lowercase) when allow_iupac is true and
map to N when it is false; space, tab, CR and LF are removed; every other
byte maps to N. -/
theorem normalize_output_is_table_concat (seq : List Nat) (i : Bool)
    (h : ∀ b ∈ seq, b < 256) :
    (normalize seq i).getD seq = seq.flatMap (fun b => specTable b i) := by
  rcases hn : normalize seq i with _ | buf
  · simp only [Option.getD_none]
    have hc := (normalize_eq_none_iff seq i).mp hn
    have hall : ∀ b ∈ seq, specTable b i = [b] := by
      intro b hb
      by_contra hne
      have := (run_changed_iff seq i h).mpr ⟨b, hb, hne⟩
      rw [hc] at this
      exact Bool.false_ne_true this
    exact ((flatMap_table_eq_self_iff seq i h).mpr hall).symm
  · simp only [Option.getD_some]
    have hb := ((normalize_eq_some_iff seq i buf).mp hn).2
    rw [← hb]
    exact run_buf_eq seq i h

/-- Witness for C1 at the spec's concrete scenario
`normalize(b"N.N-N~N N", false)`. -/
theorem normalize_output_is_table_concat_witness :
    (normalize [78, 46, 78, 45, 78, 126, 78, 32, 78] false).getD
        [78, 46, 78, 45, 78, 126, 78, 32, 78] =
      [78, 46, 78, 45, 78, 126, 78, 32, 78].flatMap (fun b => specTable b false) :=
  normalize_output_is_table_concat [78, 46, 78, 45, 78, 126, 78, 32, 78] false
    (by decide)

/-- Claim C2: normalize returns Some (a new buffer) if and only if at least
one byte of the input was altered or removed by the section 4.1 table
(removing whitespace counts as a change), and None otherwise. -/
theorem normalize_some_iff_changed (seq : List Nat) (i : Bool)
    (h : ∀ b ∈ seq, b < 256) :
    (normalize seq i).isSome = true ↔ ∃ b ∈ seq, alteredOrRemoved b i := by
  have hiso : (normalize seq i).isSome = (normalizeRun seq i).2 := by
    unfold normalize
    by_cases hc : (normalizeRun seq i).2 = true <;> simp [hc]
  rw [hiso, run_changed_iff seq i h]
  constructor
  · rintro ⟨b, hb, hne⟩
    exact ⟨b, hb, (alteredOrRemoved_iff b i).mpr hne⟩
  · rintro ⟨b, hb, hao⟩
    exact ⟨b, hb, (alteredOrRemoved_iff b i).mp hao⟩

/-- Witness for C2 on the single-byte input `b"a"`. -/
theorem normalize_some_iff_changed_witness :
    ((normalize [97] true).isSome = true ↔ ∃ b ∈ [97], alteredOrRemoved b true) :=
  normalize_some_iff_changed [97] true (by decide)

/-- Claim C3: normalize is idempotent: reapplying normalize (with the same
allow_iupac flag) to the output of normalize returns the no-change signal
None. -/
theorem normalize_idempotent (seq : List Nat) (i : Bool)
    (h : ∀ b ∈ seq, b < 256) :
    normalize ((normalize seq i).getD seq) i = none := by
  rcases hn : normalize seq i with _ | buf
  · simp only [Option.getD_none]
    exact hn
  · simp only [Option.getD_some]
    have hb := ((normalize_eq_some_iff seq i buf).mp hn).2
    have hfix : ∀ x ∈ buf, x ≠ 32 ∧ normMap x i = (x, false) := by
      rw [← hb]
      exact run_fixed_elem seq i h
    rw [normalize_eq_none_iff]
    rw [run_of_fixed buf i hfix]

/-- Witness for C3 on the input `b"a"` (whose normalization is `b"A"`). -/
theorem normalize_idempotent_witness :
    normalize ((normalize [97] true).getD [97]) true = none :=
  normalize_idempotent [97] true (by decide)

/-- Claim C10: normalize never allocates a copy identical to its input:
whenever it returns Some buffer, the buffer differs from the input, and it
returns None exactly when the table-normalized output is byte-for-byte
identical to the input. -/
theorem normalize_never_identical_copy (seq : List Nat) (i : Bool)
    (h : ∀ b ∈ seq, b < 256) :
    (∀ buf, normalize seq i = some buf → buf ≠ seq) ∧
      (normalize seq i = none ↔ seq.flatMap (fun b => specTable b i) = seq) := by
  constructor
  · intro buf hbuf heq
    have hsome := (normalize_eq_some_iff seq i buf).mp hbuf
    rcases (run_changed_iff seq i h).mp hsome.1 with ⟨b, hbm, hne⟩
    have hflat : seq.flatMap (fun b => specTable b i) = seq := by
      rw [← run_buf_eq seq i h, hsome.2]
      exact heq
    exact hne ((flatMap_table_eq_self_iff seq i h).mp hflat b hbm)
  · rw [normalize_eq_none_iff]
    constructor
    · intro hc
      have hall : ∀ b ∈ seq, specTable b i = [b] := by
        intro b hb
        by_contra hne
        have := (run_changed_iff seq i h).mpr ⟨b, hb, hne⟩
        rw [hc] at this
        exact Bool.false_ne_true this
      exact (flatMap_table_eq_self_iff seq i h).mpr hall
    · intro hflat
      have hall := (flatMap_table_eq_self_iff seq i h).mp hflat
      by_contra hc
      have hc2 : (normalizeRun seq i).2 = true := by
        cases hv : (normalizeRun seq i).2
        · exact absurd hv hc
        · rfl
      rcases (run_changed_iff seq i h).mp hc2 with ⟨b, hbm, hne⟩
      exact hne (hall b hbm)

/-- Witness for C10 on the input `b"a"`, whose normalization allocates
`b"A"`, a buffer different from the input. -/
theorem normalize_never_identical_copy_witness :
    ([65] : List Nat) ≠ [97] ∧
      (normalize [97] false = none ↔
        [97].flatMap (fun b => specTable b false) = [97]) :=
  ⟨(normalize_never_identical_copy [97] false (by decide)).1 [65] (by decide),
    (normalize_never_identical_copy [97] false (by decide)).2⟩

/-- Claim C4: strip_returns returns exactly the input with all CR (13) and
LF (10) bytes removed and all other bytes kept in their original relative
order; it returns the input as a borrowed view if and only if the input
contains no CR or LF; its output length is at most the input length, with
equality exactly when no CR or LF is present. -/
theorem strip_returns_spec (seq : List Nat) :
    (strip_returns seq).toList = seq.filter (fun b => !isNewline b) ∧
      ((strip_returns seq).isBorrowed = true ↔ ∀ b ∈ seq, isNewline b = false) ∧
      (strip_returns seq).toList.length ≤ seq.length ∧
      ((strip_returns seq).toList.length = seq.length ↔
        ∀ b ∈ seq, isNewline b = false) := by
  have htl : (strip_returns seq).toList = seq.filter (fun b => !isNewline b) := by
    unfold strip_returns
    rcases hm : memchr2 13 10 seq with _ | p
    · simp only [Cow.toList]
      exact (filter_eq_of_memchr2_none seq hm).symm
    · simp only [Cow.toList]
      rw [stripLoop_eq seq seq.length p (seq.take p) (by omega)]
      conv_rhs => rw [← List.take_append_drop p seq]
      rw [List.filter_append]
      congr 1
      symm
      rw [List.filter_eq_self]
      intro x hx
      have := memchr2_take_spec 13 10 seq p hm x hx
      simp only [isNewline, Bool.not_eq_true']
      simp only [Bool.or_eq_false_iff, beq_eq_false_iff_ne]
      tauto
  have hbor : (strip_returns seq).isBorrowed = true ↔
      ∀ b ∈ seq, isNewline b = false := by
    unfold strip_returns
    rcases hm : memchr2 13 10 seq with _ | p
    · simp only [Cow.isBorrowed]
      constructor
      · intro _ b hb
        have := (memchr2_eq_none_iff 13 10 seq).mp hm b hb
        simp only [isNewline, Bool.or_eq_false_iff, beq_eq_false_iff_ne]
        tauto
      · intro _; trivial
    · simp only [Cow.isBorrowed]
      constructor
      · intro hfalse
        exact absurd hfalse Bool.false_ne_true
      · intro hall
        rcases memchr2_some_mem 13 10 seq p hm with ⟨x, hx, hxab⟩
        have := hall x hx
        simp only [isNewline, Bool.or_eq_false_iff, beq_eq_false_iff_ne] at this
        tauto
  refine ⟨htl, hbor, ?_, ?_⟩
  · rw [htl]
    exact List.length_filter_le _ seq
  · rw [htl, List.filter_length_eq_length]
    constructor
    · intro hall b hb
      have := hall b hb
      simpa using this
    · intro hall b hb
      simpa using hall b hb

/-- Witness for C4 at the input `b"A\rB"`: the CR byte is removed. -/
theorem strip_returns_spec_witness :
    (strip_returns [65, 13, 66]).toList =
      [65, 13, 66].filter (fun b => !isNewline b) :=
  (strip_returns_spec [65, 13, 66]).1

/-- Claim C5: reverse_complement returns a buffer of exactly the input's
length whose byte at every index i is the complement of the input byte at
index len-1-i. -/
theorem reverse_complement_spec (seq : List Nat) :
    (reverse_complement seq).length = seq.length ∧
      ∀ i, i < seq.length →
        (reverse_complement seq)[i]? = (seq[seq.length - 1 - i]?).map complement := by
  constructor
  · simp [reverse_complement]
  · intro i hi
    unfold reverse_complement
    rw [List.getElem?_map, List.getElem?_reverse hi]

/-- Witness for C5 at `b"ACG"`, index 0 (output head is the complement of
the last input byte). -/
theorem reverse_complement_spec_witness :
    (reverse_complement [65, 67, 71]).length = ([65, 67, 71] : List Nat).length ∧
      (reverse_complement [65, 67, 71])[0]? =
        (([65, 67, 71] : List Nat)[([65, 67, 71] : List Nat).length - 1 - 0]?).map
          complement :=
  ⟨(reverse_complement_spec [65, 67, 71]).1,
    (reverse_complement_spec [65, 67, 71]).2 0 (by decide)⟩

/-- Claim C6: reverse complement is an involution on the supported
alphabet: for every sequence over {A,C,G,T,N,-} and the ten IUPAC
ambiguity codes, applying reverse_complement twice gives back the input. -/
theorem reverse_complement_involution (seq : List Nat)
    (h : ∀ b ∈ seq, b ∈ supportedAlphabet) :
    reverse_complement (reverse_complement seq) = seq := by
  unfold reverse_complement
  rw [← List.map_reverse, List.reverse_reverse, List.map_map]
  have : ∀ b ∈ seq, (complement ∘ complement) b = id b := by
    intro b hb
    exact complement_involutive b (h b hb)
  rw [List.map_congr_left this, List.map_id]

/-- Witness for C6 at `b"ACGTN-BDHVRYSWKM"`. -/
theorem reverse_complement_involution_witness :
    reverse_complement (reverse_complement
        [65, 67, 71, 84, 78, 45, 66, 68, 72, 86, 82, 89, 83, 87, 75, 77]) =
      [65, 67, 71, 84, 78, 45, 66, 68, 72, 86, 82, 89, 83, 87, 75, 77] :=
  reverse_complement_involution
    [65, 67, 71, 84, 78, 45, 66, 68, 72, 86, 82, 89, 83, 87, 75, 77] (by decide)

/-- Claim C7: for a record whose quality slice has the same length as its
sequence slice, quality_mask returns a buffer of that same length holding N
(78) at every position whose quality byte is strictly below the threshold
and the original sequence byte elsewhere. -/
theorem quality_mask_spec (seq qual : List Nat) (score : Nat)
    (h : qual.length = seq.length) :
    (quality_mask seq qual score).length = seq.length ∧
      ∀ (i s q : Nat), seq[i]? = some s → qual[i]? = some q →
        (quality_mask seq qual score)[i]? = some (if q < score then 78 else s) := by
  constructor
  · rw [quality_mask_length]
    omega
  · intro i s q hs hq
    rw [quality_mask_getElem, hs, hq]
    rfl

/-- Witness for C7 at the spec's concrete scenario: sequence `b"AGCT"`,
quality `b"AAA0"`, threshold `b'5'`; position 3 is masked to N. -/
theorem quality_mask_spec_witness :
    (quality_mask [65, 71, 67, 84] [65, 65, 65, 48] 53).length =
        ([65, 71, 67, 84] : List Nat).length ∧
      (quality_mask [65, 71, 67, 84] [65, 65, 65, 48] 53)[3]? =
        some (if 48 < 53 then 78 else 84) :=
  ⟨(quality_mask_spec [65, 71, 67, 84] [65, 65, 65, 48] 53 (by decide)).1,
    (quality_mask_spec [65, 71, 67, 84] [65, 65, 65, 48] 53 (by decide)).2 3 84 48
      (by decide) (by decide)⟩

/-- Claim C9: for every sequence slice and quality slice, including pairs
of unequal lengths, quality_mask is total: it returns a buffer of length
min(len(sequence), len(quality)), applies the masking rule on the
overlapping prefix, and yields nothing (rather than failing) beyond it. -/
theorem quality_mask_total (seq qual : List Nat) (score : Nat) :
    (quality_mask seq qual score).length = min seq.length qual.length ∧
      ∀ i : Nat, (quality_mask seq qual score)[i]? =
        (seq[i]?).bind (fun s => (qual[i]?).map (fun q => if q < score then 78 else s)) :=
  ⟨quality_mask_length seq qual score, fun i => quality_mask_getElem seq qual score i⟩

/-- Witness for C9 at slices of unequal length (sequence `b"AGC"`, quality
`b"A"`): the output has the overlap length 1 and no entry at index 1. -/
theorem quality_mask_total_witness :
    (quality_mask [65, 71, 67] [65] 53).length =
        min ([65, 71, 67] : List Nat).length ([65] : List Nat).length ∧
      (quality_mask [65, 71, 67] [65] 53)[1]? =
        ((([65, 71, 67] : List Nat))[1]?).bind
          (fun s => ((([65] : List Nat))[1]?).map (fun q => if q < 53 then 78 else s)) :=
  ⟨(quality_mask_total [65, 71, 67] [65] 53).1,
    (quality_mask_total [65, 71, 67] [65] 53).2 1⟩

/-- Claim C8: when the canonical k-mer iterator, run over a forward
sequence together with its own reverse complement, reaches a valid window
(all bytes A,C,G,T), then: a palindromic window (equal to its own reverse
complement) is yielded as the forward bytes with flag false; a non-tied
window is yielded as the lexicographically smaller of the forward window
and its reverse complement, with flag true exactly when the
reverse-complement form is chosen; and the yield belongs to the iterator's
output list. -/
theorem canonical_kmers_tie_break (seq : List Nat) (k i : Nat)
    (hik : i + k ≤ seq.length)
    (hval : (window seq i k).all isACGT = true) :
    (reverse_complement (window seq i k) = window seq i k →
        canonicalAt seq (reverse_complement seq) k i =
          some (i, window seq i k, false)) ∧
      (reverse_complement (window seq i k) ≠ window seq i k →
        canonicalAt seq (reverse_complement seq) k i =
          some (i,
            (if lexLt (reverse_complement (window seq i k)) (window seq i k) then
              reverse_complement (window seq i k)
            else window seq i k),
            lexLt (reverse_complement (window seq i k)) (window seq i k))) ∧
      ∀ r, canonicalAt seq (reverse_complement seq) k i = some r →
        r ∈ canonical_kmers seq (reverse_complement seq) k := by
  have hw := window_reverse_complement seq k i hik
  refine ⟨?_, ?_, ?_⟩
  · intro hpal
    unfold canonicalAt
    rw [if_pos hval, hw, hpal, lexLt_irrefl, if_neg Bool.false_ne_true]
  · intro _
    unfold canonicalAt
    rw [if_pos hval, hw]
    by_cases hlt : lexLt (reverse_complement (window seq i k)) (window seq i k) = true
    · rw [if_pos hlt, if_pos hlt, hlt]
    · rw [if_neg hlt, if_neg hlt]
      have hfalse : lexLt (reverse_complement (window seq i k)) (window seq i k) = false := by
        cases hv : lexLt (reverse_complement (window seq i k)) (window seq i k)
        · rfl
        · exact absurd hv hlt
      rw [hfalse]
  · intro r hr
    unfold canonical_kmers
    rw [List.mem_filterMap]
    exact ⟨i, List.mem_range.mpr (by omega), hr⟩

/-- Witness for C8 at the palindromic window `b"AT"` (k = 2, offset 0). -/
theorem canonical_kmers_tie_break_witness :
    canonicalAt [65, 84] (reverse_complement [65, 84]) 2 0 =
      some (0, window [65, 84] 0 2, false) :=
  (canonical_kmers_tie_break [65, 84] 2 0 (by decide) (by decide)).1 (by decide)

end Needletail
